import Mathlib

/-!
# trafficoin/core: the transaction record

A shallow embedding of `transaction.go` (package `core`): the byte encoding of
`Transaction` and `SignedTransaction`, and the two validators
`ValidateSignature` and `ValidateHash`.

Go values are modelled as follows.

* `byte` is `Fin 256`, `[]byte` is `List Byte`, `[][]byte` is `List (List Byte)`.
* `uint64` is `Fin (2 ^ 64)`.
* `error` is `Option String`: `none` is `nil`, `some msg` is `errors.New msg`.
* `bytes.Buffer` is a record holding the bytes written so far; `Write`
  appends and returns the new buffer (explicit state passing).
* A call that can end in a run-time panic returns a `GoResult`.
-/

namespace core

/-- One Go `byte`. -/
abbrev Byte := Fin 256

/-- The Go type `uint64`. -/
abbrev UInt64 := Fin (2 ^ 64)

/-- The Go interface type `error`; `none` is `nil`. -/
abbrev error := Option String

/-- Outcome of a Go call that either returns a value or panics. -/
inductive GoResult (α : Type) where
  | ret (a : α) : GoResult α
  | panic (msg : String) : GoResult α
  deriving DecidableEq, Repr

/-- AddressSize size of account address (ed25519 public key size). -/
def AddressSize : Nat := 32

/-- SignatureSize size of signature (ed25519 signature size). -/
def SignatureSize : Nat := 32

/-- HashSize size of hash (BLAKE2 hash size). -/
def HashSize : Nat := 64

/-! ## `bytes.Buffer` and `encoding/binary` -/

/-- The contents of a `bytes.Buffer`. -/
structure Buffer where
  buf : List Byte
  deriving DecidableEq, Repr

/-- The zero value `&bytes.Buffer{}`. -/
def Buffer.empty : Buffer := ⟨[]⟩

/-- The constructor `bytes.NewBuffer(buf)`. -/
def NewBuffer (buf : List Byte) : Buffer := ⟨buf⟩

/-- The method `(*Buffer).Write`: appends `p`. -/
def Buffer.Write (b : Buffer) (p : List Byte) : Buffer := ⟨b.buf ++ p⟩

/-- The method `(*Buffer).Bytes`. -/
def Buffer.Bytes (b : Buffer) : List Byte := b.buf

/-- The conversion `byte(v)` of a `uint64`: keeps the low 8 bits. -/
def toByte (v : Nat) : Byte := ⟨v % 256, Nat.mod_lt _ (by decide)⟩

/-- The function `binary.BigEndian.PutUint64`: `b[0] = byte(v >> 56)`, ...,
`b[7] = byte(v)`. -/
def PutUint64 (v : UInt64) : List Byte :=
  [toByte (v.val >>> 56), toByte (v.val >>> 48), toByte (v.val >>> 40),
   toByte (v.val >>> 32), toByte (v.val >>> 24), toByte (v.val >>> 16),
   toByte (v.val >>> 8), toByte v.val]

/-- The call `binary.Write(b, binary.BigEndian, v)` for a `uint64`. -/
def binaryWrite (b : Buffer) (v : UInt64) : Buffer := b.Write (PutUint64 v)

/-! ## The external package `golang.org/x/crypto/ed25519`

The package is not part of this repository. Its exported function `Verify` is
modelled by its documented interface: it panics when the public key does not
have `PublicKeySize` bytes, and it rejects a signature that does not have
`SignatureSize` bytes. The curve arithmetic that decides a correctly sized
signature is a parameter, `check`. -/

namespace ed25519

/-- PublicKeySize is the size, in bytes, of public keys as used in this package. -/
def PublicKeySize : Nat := 32

/-- SignatureSize is the size, in bytes, of signatures generated and verified by
this package. -/
def SignatureSize : Nat := 64

/-- Verify reports whether `sig` is a valid signature of `message` by
`publicKey`. It will panic if `len(publicKey)` is not `PublicKeySize`. -/
def Verify (check : List Byte → List Byte → List Byte → Bool)
    (publicKey message sig : List Byte) : GoResult Bool :=
  if publicKey.length ≠ PublicKeySize then
    .panic ("ed25519: bad public key length: " ++ toString publicKey.length)
  else if sig.length ≠ SignatureSize then
    .ret false
  else
    .ret (check publicKey message sig)

/-- PrivateKeySize is the size, in bytes, of private keys as used in this package. -/
def PrivateKeySize : Nat := 64

/-- Sign signs the message with `privateKey` and returns a signature. It will
panic if `len(privateKey)` is not `PrivateKeySize`. The arithmetic that makes
the signature is a parameter, `signer`. -/
def Sign (signer : List Byte → List Byte → List Byte)
    (privateKey message : List Byte) : GoResult (List Byte) :=
  if privateKey.length ≠ PrivateKeySize then
    .panic ("ed25519: bad private key length: " ++ toString privateKey.length)
  else
    .ret (signer privateKey message)

/-- A key pair of the scheme: the private key has its size, and the
correctness law holds, `Verify(pub, m, Sign(priv, m)) = true` for every
message `m`. -/
def IsKeyPair (check : List Byte → List Byte → List Byte → Bool)
    (signer : List Byte → List Byte → List Byte) (pub priv : List Byte) : Prop :=
  priv.length = PrivateKeySize ∧
    ∀ m : List Byte, Verify check pub m (signer priv m) = .ret true

end ed25519

/-! ## The external package `golang.org/x/crypto/blake2b`

The package is not part of this repository. `Sum256` is BLAKE2b as RFC 7693
defines it, unkeyed, with a 32-byte digest. Words are natural numbers below
`2 ^ 64`; the sixteen-word working vector is a list. -/

namespace blake2b

/-- The modulus of 64-bit word arithmetic. -/
def wordMod : Nat := 2 ^ 64

/-- The block size of the hash in bytes. -/
def BlockSize : Nat := 128

/-- The initialisation vector of BLAKE2b. -/
def iv : List Nat :=
  [0x6a09e667f3bcc908, 0xbb67ae8584caa73b, 0x3c6ef372fe94f82b, 0xa54ff53a5f1d36f1,
   0x510e527fade682d1, 0x9b05688c2b3e6c1f, 0x1f83d9abfb41bd6b, 0x5be0cd19137e2179]

/-- The ten message schedules; row `r` is packed into one number, one
hexadecimal digit for each of its sixteen entries, first entry on the left. -/
def schedule : List Nat :=
  [0x0123456789abcdef, 0xea489fd61c02b753, 0xb8c052fdae367194, 0x7931dcbe265a40f8,
   0x905724afe1bc683d, 0x2c6a0b834d75fe19, 0xc51fed4a0763928b, 0xdb7ec13950f4862a,
   0x6fe9b308c2d714a5, 0xa2847615fb9e3cd0]

/-- Entry `i` of the schedule of round `r`. -/
def sigma (r i : Nat) : Nat := (schedule.getD (r % 10) 0 >>> (4 * (15 - i))) % 16

/-- Rotation of a 64-bit word to the right by `n` bits. -/
def rotr (x n : Nat) : Nat := ((x >>> n) ||| (x <<< (64 - n))) % wordMod

/-- The mixing function `G` on the words at positions `a b c d` with message
words `x` and `y`. -/
def mix (v : List Nat) (a b c d x y : Nat) : List Nat :=
  let va := (v.getD a 0 + v.getD b 0 + x) % wordMod
  let vd := rotr (v.getD d 0 ^^^ va) 32
  let vc := (v.getD c 0 + vd) % wordMod
  let vb := rotr (v.getD b 0 ^^^ vc) 24
  let va := (va + vb + y) % wordMod
  let vd := rotr (vd ^^^ va) 16
  let vc := (vc + vd) % wordMod
  let vb := rotr (vb ^^^ vc) 63
  (((v.set a va).set b vb).set c vc).set d vd

/-- One round: four column steps, then four diagonal steps. -/
def round (m : List Nat) (v : List Nat) (r : Nat) : List Nat :=
  let w (i : Nat) : Nat := m.getD (sigma r i) 0
  let v := mix v 0 4 8 12 (w 0) (w 1)
  let v := mix v 1 5 9 13 (w 2) (w 3)
  let v := mix v 2 6 10 14 (w 4) (w 5)
  let v := mix v 3 7 11 15 (w 6) (w 7)
  let v := mix v 0 5 10 15 (w 8) (w 9)
  let v := mix v 1 6 11 12 (w 10) (w 11)
  let v := mix v 2 7 8 13 (w 12) (w 13)
  mix v 3 4 9 14 (w 14) (w 15)

/-- The word that a little-endian byte string denotes. -/
def leWord (bs : List Byte) : Nat := bs.foldr (fun b acc => b.val + 256 * acc) 0

/-- The sixteen message words of a 128-byte block. -/
def blockWords (block : List Byte) : List Nat :=
  (List.range 16).map (fun i => leWord ((block.drop (8 * i)).take 8))

/-- The compression function `F`: `t` is the number of bytes hashed so far,
`last` marks the final block. -/
def compress (h : List Nat) (block : List Byte) (t : Nat) (last : Bool) : List Nat :=
  let m := blockWords block
  let v := h ++ iv
  let v := v.set 12 (v.getD 12 0 ^^^ (t % wordMod))
  let v := v.set 13 (v.getD 13 0 ^^^ ((t / wordMod) % wordMod))
  let v := if last then v.set 14 (v.getD 14 0 ^^^ (wordMod - 1)) else v
  let v := (List.range 12).foldl (round m) v
  (List.range 8).map (fun i => h.getD i 0 ^^^ v.getD i 0 ^^^ v.getD (i + 8) 0)

/-- The last block, filled up with zero bytes. -/
def padBlock (block : List Byte) : List Byte :=
  block ++ List.replicate (BlockSize - block.length) 0

/-- Feeds the input to `compress`: first `n` whole blocks that do not end the
input, then what is left, padded, as the final block. -/
def absorb : Nat → List Nat → Nat → List Byte → List Nat
  | 0, h, t, data => compress h (padBlock data) (t + data.length) true
  | n + 1, h, t, data =>
    absorb n (compress h (data.take BlockSize) (t + BlockSize) false)
      (t + BlockSize) (data.drop BlockSize)

/-- The eight bytes of a word, least significant first. -/
def wordBytes (w : Nat) : List Byte :=
  (List.range 8).map (fun i => toByte (w >>> (8 * i)))

/-- Size256 is the hash size of BLAKE2b-256 in bytes. -/
def Size256 : Nat := 32

/-- Sum256 returns the BLAKE2b-256 checksum of the data. The blocks before
the final one number `(len(data) - 1) / 128`, none for an empty input. -/
def Sum256 (data : List Byte) : List Byte :=
  let h := iv.set 0 (iv.getD 0 0 ^^^ (0x01010000 ^^^ Size256))
  let h := absorb ((data.length - 1) / BlockSize) h 0 data
  ((h.take 4).map wordBytes).flatten

end blake2b

/-- The function `bytes.Equal`: same length and same bytes. -/
def bytesEqual (a b : List Byte) : Bool := decide (a = b)

/-! ## Transactions -/

/-- Transaction represents a transaction in the whole DAG. -/
structure Transaction where
  From : List Byte
  To : List Byte
  Amount : UInt64
  Nonce : UInt64
  Parrents : List (List Byte)
  deriving DecidableEq, Repr

/-- MarshalBinary marshal binary. -/
def Transaction.MarshalBinary (tx : Transaction) : List Byte × error :=
  let b := Buffer.empty
  let b := b.Write tx.From
  let b := b.Write tx.To
  let b := binaryWrite b tx.Amount
  let b := binaryWrite b tx.Nonce
  let b := tx.Parrents.foldl (fun b h => b.Write h) b
  (b.Bytes, none)

/-- SignedTransaction a signed transaction. -/
structure SignedTransaction where
  Transaction : Transaction
  Signature : List Byte
  deriving DecidableEq, Repr

/-- MarshalBinary marshal binary. -/
def SignedTransaction.MarshalBinary (stx : SignedTransaction) : List Byte × error :=
  match stx.Transaction.MarshalBinary with
  | (_, some e) => ([], some e)
  | (txdata, none) =>
    let b := NewBuffer txdata
    let b := b.Write stx.Signature
    (b.Bytes, none)

/-- ValidateSignature validate the signature. The parameter `check` is the
arithmetic of `ed25519.Verify`. -/
def SignedTransaction.ValidateSignature (check : List Byte → List Byte → List Byte → Bool)
    (stx : SignedTransaction) : GoResult error :=
  match stx.Transaction.MarshalBinary with
  | (_, some e) => .ret (some e)
  | (message, none) =>
    match ed25519.Verify check stx.Transaction.From message stx.Signature with
    | .panic msg => .panic msg
    | .ret false => .ret (some "signature invalid")
    | .ret true => .ret none

/-- HashedTransaction signed transaction with hash. -/
structure HashedTransaction where
  SignedTransaction : SignedTransaction
  Hash : List Byte
  deriving DecidableEq, Repr

/-- ValidateHash validate the hash. -/
def HashedTransaction.ValidateHash (htx : HashedTransaction) : error :=
  match htx.SignedTransaction.MarshalBinary with
  | (_, some e) => some e
  | (data, none) =>
    let sum := blake2b.Sum256 data
    if ¬ bytesEqual sum htx.Hash then some "hash invalid" else none

/-! ## The 8-byte big-endian encoding, as the specification words it -/

/-- The `n`-byte big-endian encoding of `v`: byte `i` is digit `n - 1 - i` of
`v` in base 256. -/
def bigEndian (n v : Nat) : List Byte :=
  (List.range n).map (fun i => toByte (v / 256 ^ (n - 1 - i)))

/-- The unsigned integer that eight bytes denote when read big-endian: the
sum of `byte i * 256 ^ (7 - i)`. -/
def readBigEndian64 (bs : List Byte) : Nat :=
  ((List.range 8).map (fun i => (bs.getD i 0).val * 256 ^ (7 - i))).sum

/-! ## Well-formed transactions, as the specification words them -/

/-- A transaction whose `From` and `To` are exactly `AddressSize` bytes and
whose parents all have the digest length `d`. -/
def Transaction.WellFormed (d : Nat) (tx : Transaction) : Prop :=
  tx.From.length = AddressSize ∧ tx.To.length = AddressSize ∧
    ∀ p ∈ tx.Parrents, p.length = d

instance (d : Nat) (tx : Transaction) : Decidable (tx.WellFormed d) := by
  unfold Transaction.WellFormed; infer_instance

/-- The changes of a signed transaction `s` that leave every length as it
was: other bytes in `From`, in `To`, in one parent or in the signature, or
another `Amount` or `Nonce`. -/
inductive Tampered (s : SignedTransaction) : SignedTransaction → Prop where
  | changeFrom (f : List Byte) (hlen : f.length = s.Transaction.From.length)
      (hne : f ≠ s.Transaction.From) :
      Tampered s { s with Transaction := { s.Transaction with From := f } }
  | changeTo (t : List Byte) (hlen : t.length = s.Transaction.To.length)
      (hne : t ≠ s.Transaction.To) :
      Tampered s { s with Transaction := { s.Transaction with To := t } }
  | changeAmount (a : UInt64) (hne : a ≠ s.Transaction.Amount) :
      Tampered s { s with Transaction := { s.Transaction with Amount := a } }
  | changeNonce (n : UInt64) (hne : n ≠ s.Transaction.Nonce) :
      Tampered s { s with Transaction := { s.Transaction with Nonce := n } }
  | changeParent (i : Nat) (p : List Byte) (hi : i < s.Transaction.Parrents.length)
      (hlen : p.length = (s.Transaction.Parrents.get ⟨i, hi⟩).length)
      (hne : p ≠ s.Transaction.Parrents.get ⟨i, hi⟩) :
      Tampered s
        { s with Transaction :=
          { s.Transaction with Parrents := s.Transaction.Parrents.set i p } }
  | changeSignature (g : List Byte) (hlen : g.length = s.Signature.length)
      (hne : g ≠ s.Signature) :
      Tampered s { s with Signature := g }

/-! ## The inputs of `transaction_test.go` -/

/-- The transaction of `TestTransaction_MarshalBinary`. -/
def testTransaction : Transaction :=
  { From := [0x05, 0x06], To := [0x07, 0x08], Amount := 1, Nonce := 2,
    Parrents := [[0x03, 0x07], [0x11, 0x23]] }

/-- The expected bytes of `TestTransaction_MarshalBinary`. -/
def testWantData : List Byte :=
  [0x05, 0x06, 0x07, 0x08, 0x00, 0x00, 0x00, 0x00, 0x00, 0x00, 0x00, 0x01,
   0x00, 0x00, 0x00, 0x00, 0x00, 0x00, 0x00, 0x02, 0x03, 0x07, 0x11, 0x23]

/-- The signed transaction of `TestSignedTransaction_MarshalBinary`. -/
def testSigned : SignedTransaction :=
  { Transaction := testTransaction, Signature := [0x11, 0x98] }

/-- The hashed transaction of `TestHashedTransaction_ValidateHash`. -/
def testHashed : HashedTransaction :=
  { SignedTransaction := testSigned,
    Hash := [0x15, 0xa6, 0xab, 0xb3, 0x04, 0xee, 0x37, 0x71, 0x5c, 0xad, 0xf9,
      0x98, 0x9a, 0x1b, 0xde, 0x3d, 0x7e, 0xc7, 0xcd, 0x55, 0xa2, 0x13, 0x93,
      0xc4, 0x54, 0xe7, 0x7a, 0xe8, 0xf1, 0x9b, 0x5e, 0x6a] }

/-- A 32-byte address made of one repeated byte. -/
def address (b : Byte) : List Byte := List.replicate 32 b

/-- A well-formed transaction with two 2-byte parents. -/
def sampleTransaction : Transaction :=
  { From := address 5, To := address 7, Amount := 1, Nonce := 2,
    Parrents := [[0x03, 0x07], [0x11, 0x23]] }

/-- The public key of test 1 of RFC 8032 (section 7.1). -/
def rfcPublicKey : List Byte :=
  [0xd7, 0x5a, 0x98, 0x01, 0x82, 0xb1, 0x0a, 0xb7, 0xd5, 0x4b, 0xfe, 0xd3, 0xc9, 0x64,
   0x07, 0x3a, 0x0e, 0xe1, 0x72, 0xf3, 0xda, 0xa6, 0x23, 0x25, 0xaf, 0x02, 0x1a, 0x68,
   0xf7, 0x07, 0x51, 0x1a]

/-- The transaction of `TestSignedTransaction_ValidateSignature` sent from
`rfcPublicKey`, with the Ed25519 signature of its unsigned encoding under the
private key of that test, the value `ed25519.Sign` returns for it. -/
def rfcSigned : SignedTransaction :=
  { Transaction :=
      { From := rfcPublicKey, To := [0x07, 0x08], Amount := 1, Nonce := 2,
        Parrents := [[0x03, 0x07], [0x11, 0x23]] },
    Signature :=
      [0x2f, 0x49, 0xeb, 0x31, 0x3e, 0xf8, 0xa1, 0x92, 0xe9, 0x55, 0x6c, 0x47, 0xe7,
       0x7d, 0xba, 0xa7, 0x5b, 0x95, 0x49, 0x3f, 0xa8, 0x94, 0xf5, 0x66, 0x47, 0x68,
       0x49, 0xe8, 0x87, 0xb4, 0xe2, 0x25, 0x52, 0x2d, 0x61, 0x03, 0xf5, 0x31, 0xad,
       0x72, 0x46, 0xec, 0xab, 0x4b, 0x86, 0x9e, 0x3f, 0xb7, 0xb8, 0x85, 0x7b, 0xb0,
       0x0e, 0x7c, 0x0b, 0xea, 0x36, 0x3a, 0xa4, 0xa7, 0xa9, 0xf0, 0x2e, 0x04] }

/-! ## A small signature scheme to run the validators on

The signature is the private key itself, and a signature is accepted when it
is the public key written twice. It satisfies the correctness law for the key
pairs `(pub, pub ++ pub)`. -/

/-- Signs by returning the private key. -/
def echoSigner (priv _message : List Byte) : List Byte := priv

/-- Accepts the signature `pub ++ pub`. -/
def echoCheck (pub _message sig : List Byte) : Bool := decide (sig = pub ++ pub)

/-! ## Buffers and the big-endian encoding -/

theorem PutUint64_eq_bigEndian (v : UInt64) : PutUint64 v = bigEndian 8 v.val := by
  simp [PutUint64, bigEndian, List.range_succ, Nat.shiftRight_eq_div_pow]

theorem PutUint64_length (v : UInt64) : (PutUint64 v).length = 8 := by
  simp [PutUint64]

theorem PutUint64_injective (a b : UInt64) (h : PutUint64 a = PutUint64 b) : a = b := by
  obtain ⟨a, ha⟩ := a
  obtain ⟨b, hb⟩ := b
  simp only [PutUint64, toByte, Nat.shiftRight_eq_div_pow, List.cons.injEq, Fin.mk.injEq,
    and_true] at h
  norm_num at h ha hb
  apply Fin.ext
  simp only
  omega

theorem foldl_Write (ps : List (List Byte)) (b : Buffer) :
    (ps.foldl (fun b h => b.Write h) b).buf = b.buf ++ ps.flatten := by
  induction ps generalizing b with
  | nil => simp
  | cons p ps ih => rw [List.foldl_cons, ih]; simp [Buffer.Write]

/-- Lists of parents of one common non-zero length are determined by their
concatenation. -/
theorem flatten_injective (d : Nat) (hd : 0 < d) :
    ∀ (l₁ l₂ : List (List Byte)), (∀ p ∈ l₁, p.length = d) → (∀ p ∈ l₂, p.length = d) →
      l₁.flatten = l₂.flatten → l₁ = l₂
  | [], [], _, _, _ => rfl
  | [], q :: l₂, _, h₂, h => by
    have hq := h₂ q (List.mem_cons_self _ _)
    have hlen : (q :: l₂).flatten.length = 0 := by rw [← h]; rfl
    simp only [List.flatten_cons, List.length_append] at hlen
    omega
  | p :: l₁, [], h₁, _, h => by
    have hp := h₁ p (List.mem_cons_self _ _)
    have hlen : (p :: l₁).flatten.length = 0 := by rw [h]; rfl
    simp only [List.flatten_cons, List.length_append] at hlen
    omega
  | p :: l₁, q :: l₂, h₁, h₂, h => by
    have hp := h₁ p (List.mem_cons_self _ _)
    have hq := h₂ q (List.mem_cons_self _ _)
    simp only [List.flatten_cons] at h
    obtain ⟨hpq, hrest⟩ := List.append_inj h (by rw [hp, hq])
    rw [hpq, flatten_injective d hd l₁ l₂ (fun r hr => h₁ r (List.mem_cons_of_mem _ hr))
      (fun r hr => h₂ r (List.mem_cons_of_mem _ hr)) hrest]

/-! ## The encoders -/

/-- The bytes `Transaction.MarshalBinary` returns, field by field. -/
theorem Transaction_marshal_eq (tx : Transaction) :
    tx.MarshalBinary =
      (tx.From ++ (tx.To ++ (PutUint64 tx.Amount ++ (PutUint64 tx.Nonce
        ++ tx.Parrents.flatten))), none) := by
  unfold Transaction.MarshalBinary
  simp only [Buffer.Bytes, foldl_Write]
  simp [binaryWrite, Buffer.Write, Buffer.empty]

/-- The bytes `SignedTransaction.MarshalBinary` returns. -/
theorem SignedTransaction_marshal_eq (stx : SignedTransaction) :
    stx.MarshalBinary = (stx.Transaction.MarshalBinary.1 ++ stx.Signature, none) := by
  unfold SignedTransaction.MarshalBinary
  rw [Transaction_marshal_eq]
  simp [NewBuffer, Buffer.Write, Buffer.Bytes]

/-- C1: `Transaction.MarshalBinary` never fails and returns `From`, `To`, the
8-byte big-endian `Amount`, the 8-byte big-endian `Nonce` and the parents in
their order, concatenated with nothing in between; on the input of
`TestTransaction_MarshalBinary` these are the 24 expected bytes. -/
theorem Transaction_MarshalBinary_layout (tx : Transaction) :
    tx.MarshalBinary =
        (tx.From ++ tx.To ++ bigEndian 8 tx.Amount.val ++ bigEndian 8 tx.Nonce.val
          ++ tx.Parrents.flatten, none) ∧
      testTransaction.MarshalBinary = (testWantData, none) := by
  constructor
  · rw [Transaction_marshal_eq, PutUint64_eq_bigEndian, PutUint64_eq_bigEndian]
    simp
  · decide

/-- C2: `SignedTransaction.MarshalBinary` never fails and returns the unsigned
encoding followed by the signature: the unsigned encoding is a prefix, what
is left after it is the signature; on the input of
`TestSignedTransaction_MarshalBinary` these are the 24 unsigned bytes and
then `11 98`. -/
theorem SignedTransaction_MarshalBinary_layout (stx : SignedTransaction) :
    stx.MarshalBinary = (stx.Transaction.MarshalBinary.1 ++ stx.Signature, none) ∧
      stx.Transaction.MarshalBinary.1 <+: stx.MarshalBinary.1 ∧
      stx.MarshalBinary.1.drop stx.Transaction.MarshalBinary.1.length = stx.Signature ∧
      testSigned.MarshalBinary = (testWantData ++ [0x11, 0x98], none) := by
  rw [SignedTransaction_marshal_eq]
  refine ⟨rfl, List.prefix_append _ _, List.drop_left _ _, ?_⟩
  decide

/-- C3: on transactions whose `From` and `To` have `AddressSize` bytes and
whose parents all have one common non-zero length `d`, different transactions
have different encodings. -/
theorem Transaction_MarshalBinary_injective (d : Nat) (t₁ t₂ : Transaction)
    (hd : 0 < d) (h₁ : t₁.WellFormed d) (h₂ : t₂.WellFormed d) (hne : t₁ ≠ t₂) :
    t₁.MarshalBinary.1 ≠ t₂.MarshalBinary.1 := by
  intro h
  apply hne
  rw [Transaction_marshal_eq, Transaction_marshal_eq] at h
  obtain ⟨hf₁, ht₁, hp₁⟩ := h₁
  obtain ⟨hf₂, ht₂, hp₂⟩ := h₂
  obtain ⟨hFrom, h⟩ := List.append_inj h (by rw [hf₁, hf₂])
  obtain ⟨hTo, h⟩ := List.append_inj h (by rw [ht₁, ht₂])
  obtain ⟨hAmount, h⟩ := List.append_inj h (by rw [PutUint64_length, PutUint64_length])
  obtain ⟨hNonce, h⟩ := List.append_inj h (by rw [PutUint64_length, PutUint64_length])
  have hParrents := flatten_injective d hd _ _ hp₁ hp₂ h
  cases t₁
  cases t₂
  simp only at hFrom hTo hAmount hNonce hParrents
  rw [hFrom, hTo, PutUint64_injective _ _ hAmount, PutUint64_injective _ _ hNonce, hParrents]

/-- Witness of C3: two well-formed transactions that differ in the order of
their parents. -/
theorem Transaction_MarshalBinary_injective_witness :
    (0 < 2 ∧ sampleTransaction.WellFormed 2 ∧
      ({ sampleTransaction with Parrents := [[0x11, 0x23], [0x03, 0x07]] } :
        Transaction).WellFormed 2 ∧
      sampleTransaction ≠
        { sampleTransaction with Parrents := [[0x11, 0x23], [0x03, 0x07]] }) ∧
      sampleTransaction.MarshalBinary.1 ≠
        ({ sampleTransaction with Parrents := [[0x11, 0x23], [0x03, 0x07]] } :
          Transaction).MarshalBinary.1 :=
  ⟨by decide, Transaction_MarshalBinary_injective 2 _ _ (by decide) (by decide) (by decide)
    (by decide)⟩


/-! ## The validators -/

/-- The outcome of `ValidateSignature` as a function of the outcome of
`ed25519.Verify` on `From`, the unsigned encoding and the signature. -/
theorem ValidateSignature_eq (check : List Byte → List Byte → List Byte → Bool)
    (stx : SignedTransaction) :
    stx.ValidateSignature check =
      match ed25519.Verify check stx.Transaction.From stx.Transaction.MarshalBinary.1
          stx.Signature with
      | .panic msg => .panic msg
      | .ret false => .ret (some "signature invalid")
      | .ret true => .ret none := by
  unfold SignedTransaction.ValidateSignature
  rw [Transaction_marshal_eq]

/-- The outcome of `ValidateHash` as a comparison of the digest of the signed
encoding with `Hash`. -/
theorem ValidateHash_eq (htx : HashedTransaction) :
    htx.ValidateHash =
      if blake2b.Sum256 htx.SignedTransaction.MarshalBinary.1 = htx.Hash then none
      else some "hash invalid" := by
  unfold HashedTransaction.ValidateHash
  rw [SignedTransaction_marshal_eq]
  simp only [bytesEqual, decide_eq_true_eq]
  split <;> simp_all

/-- C4, counterexample: on the signed transaction of the marshalling tests,
whose `From` has 2 bytes, `ed25519.Verify` does not return true and yet
`ValidateSignature` does not return "signature invalid" (the call panics). -/
theorem ValidateSignature_no_error_on_short_key :
    ed25519.Verify (fun _ _ _ => true) testSigned.Transaction.From
        testSigned.Transaction.MarshalBinary.1 testSigned.Signature ≠ .ret true ∧
      testSigned.ValidateSignature (fun _ _ _ => true) ≠ .ret (some "signature invalid") ∧
      ¬ ∀ (check : List Byte → List Byte → List Byte → Bool) (stx : SignedTransaction),
        (stx.ValidateSignature check = .ret none ↔
          ed25519.Verify check stx.Transaction.From stx.Transaction.MarshalBinary.1
            stx.Signature = .ret true) ∧
        (ed25519.Verify check stx.Transaction.From stx.Transaction.MarshalBinary.1
            stx.Signature ≠ .ret true →
          stx.ValidateSignature check = .ret (some "signature invalid")) := by
  refine ⟨by decide, by decide, fun h => ?_⟩
  have h2 := (h (fun _ _ _ => true) testSigned).2 (by decide)
  revert h2
  decide

/-- C4, amended: `ValidateSignature` returns nil exactly when `ed25519.Verify`
on `From`, the unsigned encoding and the signature returns true; it returns
"signature invalid" exactly when that call returns false, and never another
error; when `From` has exactly `AddressSize` bytes, every case in which
`Verify` does not return true ends in "signature invalid". -/
theorem ValidateSignature_outcomes (check : List Byte → List Byte → List Byte → Bool) (stx : SignedTransaction) :
    (stx.ValidateSignature check = .ret none ↔
        ed25519.Verify check stx.Transaction.From stx.Transaction.MarshalBinary.1
          stx.Signature = .ret true) ∧
      (stx.ValidateSignature check = .ret (some "signature invalid") ↔
        ed25519.Verify check stx.Transaction.From stx.Transaction.MarshalBinary.1
          stx.Signature = .ret false) ∧
      (∀ e, stx.ValidateSignature check = .ret (some e) → e = "signature invalid") ∧
      (stx.Transaction.From.length = AddressSize →
        ed25519.Verify check stx.Transaction.From stx.Transaction.MarshalBinary.1
            stx.Signature ≠ .ret true →
          stx.ValidateSignature check = .ret (some "signature invalid")) := by
  rw [ValidateSignature_eq]
  refine ⟨?_, ?_, ?_, ?_⟩
  · split <;> simp_all
  · split <;> simp_all
  · intro e; split <;> simp_all
  · intro hlen
    have hkey : ¬ stx.Transaction.From.length ≠ ed25519.PublicKeySize := by
      simp [hlen, AddressSize, ed25519.PublicKeySize]
    unfold ed25519.Verify
    rw [if_neg hkey]
    by_cases hsig : stx.Signature.length ≠ ed25519.SignatureSize
    · rw [if_pos hsig]; simp
    · rw [if_neg hsig]
      cases check stx.Transaction.From stx.Transaction.MarshalBinary.1 stx.Signature <;> simp

/-- C5: `ValidateHash` returns nil exactly when `Hash` is the BLAKE2b-256
digest of the signed encoding (the unsigned encoding followed by the
signature), and returns "hash invalid" in every other case. -/
theorem ValidateHash_nil_iff (htx : HashedTransaction) :
    (htx.ValidateHash = none ↔
        htx.Hash = blake2b.Sum256 htx.SignedTransaction.MarshalBinary.1) ∧
      (htx.ValidateHash = some "hash invalid" ↔
        htx.Hash ≠ blake2b.Sum256 htx.SignedTransaction.MarshalBinary.1) ∧
      htx.SignedTransaction.MarshalBinary.1 =
        htx.SignedTransaction.Transaction.MarshalBinary.1 ++ htx.SignedTransaction.Signature := by
  rw [ValidateHash_eq, SignedTransaction_marshal_eq]
  refine ⟨?_, ?_, rfl⟩
  · split <;> simp_all [eq_comm]
  · split <;> simp_all [eq_comm]

/-- C7: a hashed transaction whose `Hash` is the BLAKE2b-256 digest of its
signed encoding passes `ValidateHash`; the hashed transaction of
`TestHashedTransaction_ValidateHash` is such a one, its `Hash` is the digest
of its 26 signed bytes. -/
theorem hash_then_ValidateHash (s : SignedTransaction) :
    HashedTransaction.ValidateHash ⟨s, blake2b.Sum256 s.MarshalBinary.1⟩ = none ∧
      testHashed.Hash = blake2b.Sum256 testHashed.SignedTransaction.MarshalBinary.1 ∧
      testHashed.ValidateHash = none := by
  refine ⟨?_, ?_, ?_⟩
  · rw [ValidateHash_eq]; simp
  · decide!
  · decide!


/-- The small scheme has the key pairs `(pub, pub ++ pub)`. -/
theorem echo_isKeyPair (pub : List Byte) (h : pub.length = 32) :
    ed25519.IsKeyPair echoCheck echoSigner pub (pub ++ pub) := by
  refine ⟨by simp [h, ed25519.PrivateKeySize], fun m => ?_⟩
  simp [ed25519.Verify, echoCheck, echoSigner, h, ed25519.PublicKeySize,
    ed25519.SignatureSize]

/-- C6: for a key pair `(pub, priv)` of the scheme, correctness law assumed,
and a transaction whose `From` is `pub`, signing the unsigned encoding with
`priv` returns a signature, and the signed transaction made with it passes
`ValidateSignature`. -/
theorem sign_then_ValidateSignature (check : List Byte → List Byte → List Byte → Bool)
    (signer : List Byte → List Byte → List Byte) (pub priv : List Byte) (tx : Transaction)
    (hpair : ed25519.IsKeyPair check signer pub priv) (hfrom : tx.From = pub) :
    ∃ sig, ed25519.Sign signer priv tx.MarshalBinary.1 = .ret sig ∧
      SignedTransaction.ValidateSignature check ⟨tx, sig⟩ = .ret none := by
  refine ⟨signer priv tx.MarshalBinary.1, ?_, ?_⟩
  · unfold ed25519.Sign
    rw [if_neg (by simp [hpair.1])]
  · rw [ValidateSignature_eq]
    simp only [hfrom, hpair.2]

/-- Witness of C6: the small scheme, the key pair made of the address
`05 ... 05`, and the sample transaction sent from that address. -/
theorem sign_then_ValidateSignature_witness :
    (ed25519.IsKeyPair echoCheck echoSigner (address 5) (address 5 ++ address 5) ∧
      sampleTransaction.From = address 5) ∧
    ∃ sig, ed25519.Sign echoSigner (address 5 ++ address 5)
        sampleTransaction.MarshalBinary.1 = .ret sig ∧
      SignedTransaction.ValidateSignature echoCheck ⟨sampleTransaction, sig⟩ = .ret none :=
  ⟨⟨echo_isKeyPair _ (by decide), rfl⟩,
    sign_then_ValidateSignature echoCheck echoSigner (address 5) (address 5 ++ address 5) sampleTransaction
      (echo_isKeyPair _ (by decide)) rfl⟩

/-- C9: when all parents have one common non-zero length, putting them in a
different order changes the unsigned encoding, which is the message
`ValidateSignature` checks, and the signed encoding, which is what
`ValidateHash` hashes. -/
theorem parent_order_significant (d : Nat) (tx : Transaction) (ps : List (List Byte)) (sig : List Byte)
    (hd : 0 < d) (hwf : ∀ p ∈ tx.Parrents, p.length = d)
    (hperm : ps.Perm tx.Parrents) (hne : ps ≠ tx.Parrents) :
    ({ tx with Parrents := ps } : Transaction).MarshalBinary.1 ≠ tx.MarshalBinary.1 ∧
      (SignedTransaction.MarshalBinary ⟨{ tx with Parrents := ps }, sig⟩).1 ≠
        (SignedTransaction.MarshalBinary ⟨tx, sig⟩).1 := by
  have key : ({ tx with Parrents := ps } : Transaction).MarshalBinary.1 ≠
      tx.MarshalBinary.1 := by
    intro h
    rw [Transaction_marshal_eq, Transaction_marshal_eq] at h
    simp only [List.append_cancel_left_eq] at h
    exact hne (flatten_injective d hd ps tx.Parrents
      (fun p hp => hwf p (hperm.mem_iff.mp hp)) hwf h)
  refine ⟨key, ?_⟩
  rw [SignedTransaction_marshal_eq, SignedTransaction_marshal_eq]
  intro h
  exact key (List.append_cancel_right h)

/-- Witness of C9: the two parents of the test transaction, swapped. -/
theorem parent_order_significant_witness :
    (0 < 2 ∧ (∀ p ∈ testTransaction.Parrents, p.length = 2) ∧
      [[0x11, 0x23], [0x03, 0x07]].Perm testTransaction.Parrents ∧
      [[0x11, 0x23], [0x03, 0x07]] ≠ testTransaction.Parrents) ∧
    (({ testTransaction with Parrents := [[0x11, 0x23], [0x03, 0x07]] } :
        Transaction).MarshalBinary.1 ≠ testTransaction.MarshalBinary.1 ∧
      (SignedTransaction.MarshalBinary
        ⟨{ testTransaction with Parrents := [[0x11, 0x23], [0x03, 0x07]] }, [0x11, 0x98]⟩).1 ≠
        (SignedTransaction.MarshalBinary ⟨testTransaction, [0x11, 0x98]⟩).1) :=
  ⟨⟨by decide, by decide, by decide, by decide⟩,
    parent_order_significant 2 testTransaction [[0x11, 0x23], [0x03, 0x07]] [0x11, 0x98] (by decide) (by decide)
      (by decide) (by decide)⟩

/-- C10, counterexample: on the signed transaction of the marshalling tests,
whose `From` has 2 bytes, `ValidateSignature` panics inside `ed25519.Verify`;
so it is not true that it returns nil or an error on every input. -/
theorem ValidateSignature_panics_on_short_key :
    (∀ check : List Byte → List Byte → List Byte → Bool,
        testSigned.ValidateSignature check = .panic "ed25519: bad public key length: 2") ∧
      ¬ ∀ (check : List Byte → List Byte → List Byte → Bool) (stx : SignedTransaction),
        ∃ e, stx.ValidateSignature check = .ret e := by
  have hpanic : ∀ check : List Byte → List Byte → List Byte → Bool,
      testSigned.ValidateSignature check = .panic "ed25519: bad public key length: 2" := by
    intro check
    rw [ValidateSignature_eq]
    rfl
  refine ⟨hpanic, fun h => ?_⟩
  obtain ⟨e, he⟩ := h (fun _ _ _ => true) testSigned
  rw [hpanic] at he
  cases he

/-- C10, amended: `ValidateSignature` returns nil or "signature invalid"
exactly on the signed transactions whose `From` has `AddressSize` bytes,
whatever the length of the signature, and panics on all others;
`ValidateHash` returns nil or "hash invalid" on every hashed transaction. -/
theorem validators_return_or_panic (check : List Byte → List Byte → List Byte → Bool) (stx : SignedTransaction)
    (htx : HashedTransaction) :
    ((stx.ValidateSignature check = .ret none ∨
        stx.ValidateSignature check = .ret (some "signature invalid")) ↔
      stx.Transaction.From.length = AddressSize) ∧
    ((∃ msg, stx.ValidateSignature check = .panic msg) ↔
      stx.Transaction.From.length ≠ AddressSize) ∧
    (htx.ValidateHash = none ∨ htx.ValidateHash = some "hash invalid") := by
  rw [ValidateSignature_eq, ValidateHash_eq]
  unfold ed25519.Verify
  simp only [AddressSize, ed25519.PublicKeySize]
  refine ⟨?_, ?_, ?_⟩
  · by_cases hkey : stx.Transaction.From.length = 32
    · by_cases hsig : stx.Signature.length ≠ ed25519.SignatureSize
      · simp [hkey, hsig]
      · simp only [hkey, hsig]
        cases check stx.Transaction.From stx.Transaction.MarshalBinary.1 stx.Signature <;> simp
    · simp [hkey]
  · by_cases hkey : stx.Transaction.From.length = 32
    · by_cases hsig : stx.Signature.length ≠ ed25519.SignatureSize
      · simp [hkey, hsig]
      · simp only [hkey, hsig]
        cases check stx.Transaction.From stx.Transaction.MarshalBinary.1 stx.Signature <;> simp
    · simp [hkey]
  · split <;> simp


/-! ## Changes that keep the lengths -/

/-- Replacing one parent by other bytes of the same length changes the
concatenation of the parents. -/
theorem flatten_set_ne :
    ∀ (ps : List (List Byte)) (i : Nat) (p : List Byte) (hi : i < ps.length),
      p.length = (ps.get ⟨i, hi⟩).length → p ≠ ps.get ⟨i, hi⟩ →
      (ps.set i p).flatten ≠ ps.flatten
  | [], _, _, hi, _, _ => absurd hi (Nat.not_lt_zero _)
  | q :: ps, 0, p, _, hlen, hne => by
    intro h
    simp only [List.set_cons_zero, List.flatten_cons] at h
    exact hne (List.append_inj h hlen).1
  | q :: ps, i + 1, p, hi, hlen, hne => by
    intro h
    simp only [List.set_cons_succ, List.flatten_cons, List.append_cancel_left_eq] at h
    exact flatten_set_ne ps i p (Nat.lt_of_succ_lt_succ hi) hlen hne h

/-- A change that keeps the lengths changes the signed encoding. -/
theorem tampered_encoding_ne (s s' : SignedTransaction) (h : Tampered s s') :
    s'.MarshalBinary.1 ≠ s.MarshalBinary.1 := by
  rw [SignedTransaction_marshal_eq, SignedTransaction_marshal_eq, Transaction_marshal_eq,
    Transaction_marshal_eq]
  intro heq
  cases h with
  | changeFrom f hlen hne =>
    simp only [List.append_assoc] at heq
    exact hne (List.append_inj heq hlen).1
  | changeTo t hlen hne =>
    simp only [List.append_assoc, List.append_cancel_left_eq] at heq
    exact hne (List.append_inj heq hlen).1
  | changeAmount a hne =>
    simp only [List.append_assoc, List.append_cancel_left_eq] at heq
    exact hne (PutUint64_injective _ _
      (List.append_inj heq (by rw [PutUint64_length, PutUint64_length])).1)
  | changeNonce n hne =>
    simp only [List.append_assoc, List.append_cancel_left_eq] at heq
    exact hne (PutUint64_injective _ _
      (List.append_inj heq (by rw [PutUint64_length, PutUint64_length])).1)
  | changeParent i p hi hlen hne =>
    simp only [List.append_assoc, List.append_cancel_left_eq,
      List.append_cancel_right_eq] at heq
    exact flatten_set_ne _ i p hi hlen hne heq
  | changeSignature g hlen hne =>
    simp only [List.append_assoc, List.append_cancel_left_eq] at heq
    exact hne heq

/-- With the hash of `s` in place, `ValidateHash` fails on `s'` exactly when
BLAKE2b-256 tells the two signed encodings apart. -/
theorem ValidateHash_tampered_iff (s s' : SignedTransaction) :
    HashedTransaction.ValidateHash ⟨s', blake2b.Sum256 s.MarshalBinary.1⟩ =
        some "hash invalid" ↔
      blake2b.Sum256 s'.MarshalBinary.1 ≠ blake2b.Sum256 s.MarshalBinary.1 := by
  rw [ValidateHash_eq]
  split <;> simp_all


/-! ## Fixed-width fields and digest sizes -/

/-- Reading the eight bytes `PutUint64` wrote gives the value back. -/
theorem readBigEndian64_PutUint64 (v : UInt64) : readBigEndian64 (PutUint64 v) = v.val := by
  obtain ⟨v, hv⟩ := v
  simp only [readBigEndian64, PutUint64, toByte, Nat.shiftRight_eq_div_pow, List.range_succ,
    List.range_zero, List.nil_append, List.cons_append, List.map_cons, List.map_nil,
    List.sum_cons, List.sum_nil, List.getD_cons_zero, List.getD_cons_succ]
  norm_num at hv ⊢
  omega

/-- C11: in the bytes `Transaction.MarshalBinary` returns, the eight bytes at
offset `len(From) + len(To)` read big-endian give `Amount`, the next eight
give `Nonce`, for every `uint64` value of either; the parents start exactly
16 bytes after that offset, so the two fields always take 16 bytes. -/
theorem Amount_Nonce_fixed_width_big_endian (tx : Transaction) :
    readBigEndian64 ((tx.MarshalBinary.1.drop (tx.From.length + tx.To.length)).take 8) =
        tx.Amount.val ∧
      readBigEndian64
          ((tx.MarshalBinary.1.drop (tx.From.length + tx.To.length + 8)).take 8) =
        tx.Nonce.val ∧
      (tx.MarshalBinary.1.drop (tx.From.length + tx.To.length)).drop 16 =
        tx.Parrents.flatten ∧
      tx.MarshalBinary.1.length =
        tx.From.length + tx.To.length + 16 + tx.Parrents.flatten.length := by
  rw [Transaction_marshal_eq]
  have hdrop : (tx.From ++ (tx.To ++ (PutUint64 tx.Amount ++ (PutUint64 tx.Nonce
      ++ tx.Parrents.flatten)))).drop (tx.From.length + tx.To.length) =
      PutUint64 tx.Amount ++ (PutUint64 tx.Nonce ++ tx.Parrents.flatten) := by
    rw [← List.append_assoc, ← List.length_append, List.drop_left]
  have hdrop8 : (tx.From ++ (tx.To ++ (PutUint64 tx.Amount ++ (PutUint64 tx.Nonce
      ++ tx.Parrents.flatten)))).drop (tx.From.length + tx.To.length + 8) =
      PutUint64 tx.Nonce ++ tx.Parrents.flatten := by
    rw [← List.drop_drop, hdrop]
    exact List.drop_left' (PutUint64_length _)
  rw [hdrop8, hdrop]
  refine ⟨?_, ?_, ?_, ?_⟩
  · rw [List.take_left' (PutUint64_length _), readBigEndian64_PutUint64]
  · rw [List.take_left' (PutUint64_length _), readBigEndian64_PutUint64]
  · rw [← List.append_assoc]
    exact List.drop_left' (by simp [PutUint64_length])
  · simp only [List.length_append, PutUint64_length]
    omega


/-- The compression function returns eight words. -/
theorem compress_length (h : List Nat) (block : List Byte) (t : Nat) (last : Bool) :
    (blake2b.compress h block t last).length = 8 := by
  simp [blake2b.compress]

/-- The chaining value has eight words after any number of blocks. -/
theorem absorb_length : ∀ (n : Nat) (h : List Nat) (t : Nat) (data : List Byte),
    (blake2b.absorb n h t data).length = 8
  | 0, _, _, _ => compress_length _ _ _ _
  | n + 1, _, _, _ => absorb_length n _ _ _

/-- A word is written as eight bytes. -/
theorem wordBytes_length (w : Nat) : (blake2b.wordBytes w).length = 8 := by
  simp [blake2b.wordBytes]

/-- The digest `blake2b.Sum256` returns has 32 bytes. -/
theorem Sum256_length (data : List Byte) : (blake2b.Sum256 data).length = 32 := by
  unfold blake2b.Sum256
  simp only
  generalize hh : blake2b.absorb _ _ _ _ = h
  have hlen : h.length = 8 := by rw [← hh]; exact absorb_length _ _ _ _
  match h, hlen with
  | [a, b, c, d, e, f, g, i], _ => simp [wordBytes_length]

/-- C12: the digest `ValidateHash` computes has 32 bytes while `HashSize` is
64; a hashed transaction that passes `ValidateHash` has a 32-byte `Hash` (and
the one carrying the digest does pass), so one whose `Hash` has `HashSize`
bytes fails with "hash invalid". -/
theorem ValidateHash_nil_hash_length (htx : HashedTransaction) :
    (blake2b.Sum256 htx.SignedTransaction.MarshalBinary.1).length = 32 ∧
      HashSize = 64 ∧
      HashedTransaction.ValidateHash
        ⟨htx.SignedTransaction, blake2b.Sum256 htx.SignedTransaction.MarshalBinary.1⟩ = none ∧
      (htx.ValidateHash = none → htx.Hash.length = 32) ∧
      (htx.Hash.length = HashSize → htx.ValidateHash = some "hash invalid") := by
  have hiff := ValidateHash_eq htx
  have hlen := Sum256_length htx.SignedTransaction.MarshalBinary.1
  refine ⟨hlen, rfl, ?_, fun hnil => ?_, fun h64 => ?_⟩
  · rw [ValidateHash_eq]; simp
  · rw [hiff] at hnil
    split at hnil
    · rename_i heq; rw [← heq]; exact hlen
    · cases hnil
  · rw [hiff, if_neg]
    intro heq
    rw [← heq, hlen] at h64
    revert h64
    decide


/-- C13, the code against the claim: `ValidateSignature` returns nil only for
a signature of `ed25519.SignatureSize` = 64 bytes, never for one of
`SignatureSize` = 32 bytes. The transaction signed with the key of RFC 8032
has a 32-byte `From` and a 64-byte signature and passes as soon as the
arithmetic accepts the signature; in the small scheme a 64-byte signature
passes. -/
theorem ValidateSignature_nil_signature_length (check : List Byte → List Byte → List Byte → Bool) (stx : SignedTransaction) :
    (stx.ValidateSignature check = .ret none →
        stx.Signature.length = ed25519.SignatureSize ∧
          stx.Signature.length ≠ SignatureSize) ∧
      rfcSigned.Transaction.From.length = AddressSize ∧
      rfcSigned.Signature.length = 64 ∧
      (check rfcSigned.Transaction.From rfcSigned.Transaction.MarshalBinary.1
          rfcSigned.Signature = true →
        rfcSigned.ValidateSignature check = .ret none) ∧
      SignedTransaction.ValidateSignature echoCheck
        ⟨sampleTransaction, address 5 ++ address 5⟩ = .ret none := by
  refine ⟨fun hnil => ?_, by decide, by decide, fun hcheck => ?_, by decide⟩
  · rw [ValidateSignature_eq] at hnil
    unfold ed25519.Verify at hnil
    by_cases hkey : stx.Transaction.From.length ≠ ed25519.PublicKeySize
    · rw [if_pos hkey] at hnil; cases hnil
    · rw [if_neg hkey] at hnil
      by_cases hsig : stx.Signature.length ≠ ed25519.SignatureSize
      · rw [if_pos hsig] at hnil; cases hnil
      · have h64 : stx.Signature.length = ed25519.SignatureSize := not_not.mp hsig
        refine ⟨h64, ?_⟩
        rw [h64]
        decide
  · rw [ValidateSignature_eq]
    unfold ed25519.Verify
    rw [if_neg (by decide), if_neg (by decide), hcheck]

/-- C14: the test transaction and the one with `From = [05]`,
`To = [06, 07, 08]` differ and have the same encoding, error included; so do
the test transaction and the one whose parents are `[03]`, `[07, 11, 23]`. -/
theorem Transaction_MarshalBinary_ambiguous :
    (({ testTransaction with From := [0x05], To := [0x06, 0x07, 0x08] } : Transaction) ≠
        testTransaction ∧
      ({ testTransaction with From := [0x05], To := [0x06, 0x07, 0x08] } :
        Transaction).MarshalBinary = testTransaction.MarshalBinary) ∧
    (({ testTransaction with Parrents := [[0x03], [0x07, 0x11, 0x23]] } : Transaction) ≠
        testTransaction ∧
      ({ testTransaction with Parrents := [[0x03], [0x07, 0x11, 0x23]] } :
        Transaction).MarshalBinary = testTransaction.MarshalBinary) ∧
    testTransaction.MarshalBinary = (testWantData, none) := by
  decide

/-- C15: moving the last parent `p` to the front of the signature leaves the
signed encoding as it is, so `ValidateHash` gives the same result on both
signed transactions for every `Hash`; the two are different, and with the
digest of the common encoding as `Hash` both pass. -/
theorem parent_signature_boundary_unbound (tx : Transaction) (p s h : List Byte) :
    SignedTransaction.MarshalBinary ⟨{ tx with Parrents := tx.Parrents ++ [p] }, s⟩ =
        SignedTransaction.MarshalBinary ⟨tx, p ++ s⟩ ∧
      HashedTransaction.ValidateHash ⟨⟨{ tx with Parrents := tx.Parrents ++ [p] }, s⟩, h⟩ =
        HashedTransaction.ValidateHash ⟨⟨tx, p ++ s⟩, h⟩ ∧
      ((⟨{ tx with Parrents := tx.Parrents ++ [p] }, s⟩ : SignedTransaction) ≠ ⟨tx, p ++ s⟩ ∧
        HashedTransaction.ValidateHash
          ⟨⟨{ tx with Parrents := tx.Parrents ++ [p] }, s⟩,
            blake2b.Sum256 (SignedTransaction.MarshalBinary ⟨tx, p ++ s⟩).1⟩ = none ∧
        HashedTransaction.ValidateHash
          ⟨⟨tx, p ++ s⟩, blake2b.Sum256 (SignedTransaction.MarshalBinary ⟨tx, p ++ s⟩).1⟩ =
            none) := by
  have henc : SignedTransaction.MarshalBinary ⟨{ tx with Parrents := tx.Parrents ++ [p] }, s⟩ =
      SignedTransaction.MarshalBinary ⟨tx, p ++ s⟩ := by
    rw [SignedTransaction_marshal_eq, SignedTransaction_marshal_eq, Transaction_marshal_eq,
      Transaction_marshal_eq]
    simp
  refine ⟨henc, ?_, ?_, ?_, ?_⟩
  · rw [ValidateHash_eq, ValidateHash_eq, henc]
  · intro heq
    have hp := congrArg (fun x => x.Transaction.Parrents.length) heq
    simp at hp
  · rw [ValidateHash_eq, henc]; simp
  · rw [ValidateHash_eq]; simp

/-- C16: the result of `ValidateHash` depends only on the signed encoding and
`Hash`. Every transaction with a 32-byte `From` and a 2-byte signature,
hashed with the digest of its signed encoding, passes `ValidateHash` while
`ValidateSignature` returns "signature invalid"; such a hashed transaction
exists, so passing `ValidateHash` does not imply passing
`ValidateSignature`. -/
theorem ValidateHash_ignores_signature (check : List Byte → List Byte → List Byte → Bool) :
    (∀ htx htx' : HashedTransaction,
        htx.SignedTransaction.MarshalBinary = htx'.SignedTransaction.MarshalBinary →
        htx.Hash = htx'.Hash → htx.ValidateHash = htx'.ValidateHash) ∧
      (∀ (tx : Transaction) (sig : List Byte), tx.From.length = 32 → sig.length = 2 →
        HashedTransaction.ValidateHash
            ⟨⟨tx, sig⟩, blake2b.Sum256 (SignedTransaction.MarshalBinary ⟨tx, sig⟩).1⟩ = none ∧
          SignedTransaction.ValidateSignature check ⟨tx, sig⟩ =
            .ret (some "signature invalid")) ∧
      (∃ htx : HashedTransaction, htx.SignedTransaction.Transaction.From.length = 32 ∧
        htx.ValidateHash = none ∧
        htx.SignedTransaction.ValidateSignature check = .ret (some "signature invalid")) ∧
      ¬ ∀ htx : HashedTransaction, htx.ValidateHash = none →
        htx.SignedTransaction.ValidateSignature check = .ret none := by
  have hany : ∀ (tx : Transaction) (sig : List Byte), tx.From.length = 32 → sig.length = 2 →
      HashedTransaction.ValidateHash
          ⟨⟨tx, sig⟩, blake2b.Sum256 (SignedTransaction.MarshalBinary ⟨tx, sig⟩).1⟩ = none ∧
        SignedTransaction.ValidateSignature check ⟨tx, sig⟩ =
          .ret (some "signature invalid") := by
    intro tx sig hfrom hsig
    constructor
    · rw [ValidateHash_eq]; simp
    · rw [ValidateSignature_eq]
      unfold ed25519.Verify
      rw [if_neg (by simp [hfrom, ed25519.PublicKeySize]),
        if_pos (by simp [hsig, ed25519.SignatureSize])]
  have hex := hany sampleTransaction [0x11, 0x98] (by decide) (by decide)
  refine ⟨fun htx htx' henc hhash => ?_, hany, ⟨_, ?_, hex.1, hex.2⟩, fun himp => ?_⟩
  · rw [ValidateHash_eq, ValidateHash_eq, henc, hhash]
  · decide
  · have hnil := himp _ hex.1
    rw [hex.2] at hnil
    cases hnil

end core
